import Mathlib

/-!
Verification of the matetb retrograde-tablebase core (matetb.cpp, matetb.hpp,
matetb_threaded.cpp) against its natural-language specification.

The chess rule engine (move generation, legality, check detection, compact
encoding) is an external collaborator of the program and is abstracted here
as an interface (`Game`), exactly as the specification prescribes.  Scores
are modelled as mathematical integers: all stored scores in the program are
`int16_t` values well inside the representable range, so no wrap-around can
occur and `Int` is a faithful model.  Positions are an abstract type `P`
standing for the 24-byte compact encoding (which is the identity of a
position); moves are an abstract type `M`.
-/

namespace MateTB

/-- `VALUE_MATE` from matetb.hpp line 18. -/
def VALUE_MATE : Int := 30000

/-- `VALUE_NONE` from matetb.hpp line 17. -/
def VALUE_NONE : Int := 30001

/-- The score-propagation step applied to a child score, inlined in
`MateTB::generate_tb` (matetb.cpp lines 284-286):
`if (score) score = -score + (score > 0 ? 1 : -1);`. -/
def propagate (s : Int) : Int :=
  if s ≠ 0 then -s + (if s > 0 then 1 else -1) else s

/-- `score2mate` from matetb.cpp lines 26-32.  C++ `/` truncates towards
zero, which is `Int.tdiv`. -/
def score2mate (score : Int) : Int :=
  if score > 0 then Int.tdiv (VALUE_MATE - score + 1) 2
  else if score < 0 then -(Int.tdiv (VALUE_MATE + score) 2)
  else VALUE_NONE

/-- One entry `tb[idx] = {score, children}` of the table
(`std::vector<std::pair<score_t, std::vector<index_t>>> tb`, matetb.cpp
lines 37-38). -/
structure Node where
  score : Int
  children : List Nat
deriving DecidableEq

/-- `tb[child].first`: the stored score at an index (reads of `tb` are
always in bounds in the program; the default branch is never hit under the
well-formedness invariants proved below). -/
def tbGet (tb : List Node) (c : Nat) : Int :=
  match tb[c]? with
  | some n => n.score
  | none => 0

/-- The accumulator fold of the inner loop of `MateTB::generate_tb`
(matetb.cpp lines 282-289): for each child in order,
`if (best_score == VALUE_NONE || score > best_score) best_score = score;`. -/
def bestFold (tb : List Node) (b : Int) (cs : List Nat) : Int :=
  cs.foldl
    (fun best c =>
      let score := propagate (tbGet tb c)
      if best = VALUE_NONE ∨ best < score then score else best)
    b

/-- The inner loop of `MateTB::generate_tb` (matetb.cpp lines 282-289):
the fold starting from `best_score = VALUE_NONE`. -/
def bestScore (tb : List Node) (cs : List Nat) : Int :=
  bestFold tb VALUE_NONE cs

/-- The body of one full pass of `MateTB::generate_tb` (matetb.cpp lines
281-294): indices are visited in descending order `tb.size()-1, ..., 0`;
`passAux tb (i+1) changed` processes index `i` and recurses.  An update is
written when `best_score != VALUE_NONE && tb[i].first != best_score`, and
`changed` is incremented. -/
def passAux : List Node → Nat → Nat → List Node × Nat
  | tb, 0, changed => (tb, changed)
  | tb, i + 1, changed =>
    match tb[i]? with
    | none => passAux tb i changed
    | some node =>
      let best := bestScore tb node.children
      if best ≠ VALUE_NONE ∧ node.score ≠ best then
        passAux (tb.set i ⟨best, node.children⟩) i (changed + 1)
      else passAux tb i changed

/-- One full pass over the table together with its change count
(the `for` loop of matetb.cpp lines 281-294 with `changed` reset to 0). -/
def pass (tb : List Node) : List Node × Nat :=
  passAux tb tb.length 0

/-- The table after `k` full passes of `generate_tb`. -/
def iteratePass (tb : List Node) : Nat → List Node
  | 0 => tb
  | k + 1 => iteratePass (pass tb).1 k

/-- `MateTB::generate_tb` (matetb.cpp lines 275-306): repeat `pass` until a
pass reports zero changes.  `fuel` bounds the number of passes; the C++
loop runs until convergence, which the theorems below characterise. -/
def generate_tb (fuel : Nat) (tb : List Node) : List Node :=
  match fuel with
  | 0 => tb
  | fuel + 1 =>
    let r := pass tb
    if r.2 = 0 then r.1 else generate_tb fuel r.1

/-- The external chess interface (spec §6) plus the two position-level
inputs of the enumeration: `book` is the compiled opening book restricted
lookup (`openingBook` / `onlyMove`, matetb.cpp lines 205-220, already
converted from UCI to an abstract move), and `allowed` is
`MateTB::allowed_move` specialised to the position.  `next p m` is the
compact encoding of the position after playing `m` on `p`. -/
structure Game (P M : Type) where
  legalMoves : P → List M
  next : P → M → P
  inCheck : P → Bool
  book : P → Option M
  allowed : P → M → Bool

/-- One entry of `fen2index`, with the id it was assigned and (as ghost
data used only by the depth theorems) the BFS depth at which it was
inserted. -/
structure Entry (P : Type) where
  pos : P
  idx : Nat
  depth : Nat
deriving DecidableEq

/-- The state of the `initialize_tb` BFS loop (matetb.cpp lines 179-231):
the map `fen2index` (insertion-ordered, ids dense), the table `tb`, and the
FIFO queue of `(position, depth)` pairs (head = front). -/
structure InitState (P : Type) where
  fen2index : List (Entry P)
  tb : List Node
  queue : List (P × Nat)
deriving DecidableEq

variable {P M : Type}

/-- `fen2index.find(p)`: the id of `p` if present. -/
def lookupIdx [DecidableEq P] (m : List (Entry P)) (p : P) : Option Nat :=
  (m.find? (fun e => decide (e.pos = p))).map Entry.idx

/-- The score seeded at insertion (matetb.cpp lines 200-201):
`legal_moves.size() == 0 && board.inCheck() ? -VALUE_MATE : 0`. -/
def initScore (g : Game P M) (p : P) : Int :=
  if (g.legalMoves p).length = 0 ∧ g.inCheck p = true then -VALUE_MATE else 0

/-- The successors pushed for a newly inserted non-terminal position
(matetb.cpp lines 221-230): each legal move is kept iff it is the book move
when the book applies to this position, and otherwise iff `allowed_move`
accepts it; the successor's compact encoding is pushed. -/
def spawn_allowed_children [DecidableEq M] (g : Game P M) (p : P) : List P :=
  (g.legalMoves p).filterMap fun m =>
    match g.book p with
    | some om => if m = om then some (g.next p m) else none
    | none => if g.allowed p m then some (g.next p m) else none

/-- One iteration of the `while (!q.empty())` loop of
`MateTB::initialize_tb` (matetb.cpp lines 182-231).  `none` means the loop
stops (empty queue, or `depth > max_depth` at the front, which `break`s).
Otherwise: pop; skip if the position is already a key of `fen2index`;
otherwise insert it with the next dense id, append a node seeded with
`initScore`, and (for non-mate scores) push the allowed successors at
`depth + 1`. -/
def initStep [DecidableEq P] [DecidableEq M] (g : Game P M) (maxDepth : Nat)
    (s : InitState P) : Option (InitState P) :=
  match s.queue with
  | [] => none
  | (p, d) :: rest =>
    if maxDepth < d then none
    else if (lookupIdx s.fen2index p).isSome then some { s with queue := rest }
    else
      let score := initScore g p
      if score ≠ 0 then
        some ⟨s.fen2index ++ [⟨p, s.tb.length, d⟩], s.tb ++ [⟨score, []⟩], rest⟩
      else
        some ⟨s.fen2index ++ [⟨p, s.tb.length, d⟩], s.tb ++ [⟨score, []⟩],
          rest ++ (spawn_allowed_children g p).map (fun q => (q, d + 1))⟩

/-- Run the BFS loop for at most `fuel` iterations (the C++ loop runs until
`initStep` signals a stop). -/
def initRun [DecidableEq P] [DecidableEq M] (g : Game P M) (maxDepth : Nat) :
    Nat → InitState P → InitState P
  | 0, s => s
  | fuel + 1, s =>
    match initStep g maxDepth s with
    | none => s
    | some s2 => initRun g maxDepth fuel s2

/-- The initial state: the root's compact encoding at depth 0 on the queue
(matetb.cpp lines 180-181). -/
def startState (root : P) : InitState P :=
  ⟨[], [], [(root, 0)]⟩

/-- The body of the `connect_children` loop for one map entry `(p, idx)`
(matetb.cpp lines 245-266): if `tb[idx].first != 0` leave the node alone
(mate nodes gain no children); otherwise set its children to the ids of
those legal successors of `p` that are keys of `fen2index`, in
legal-move-generation order. -/
def connectStep [DecidableEq P] (g : Game P M) (entries : List (Entry P))
    (acc : List Node) (e : Entry P) : List Node :=
  match acc[e.idx]? with
  | none => acc
  | some node =>
    if node.score ≠ 0 then acc
    else
      acc.set e.idx
        ⟨node.score,
         (g.legalMoves e.pos).filterMap fun m => lookupIdx entries (g.next e.pos m)⟩

/-- `MateTB::connect_children` (matetb.cpp lines 241-273): the loop over
all entries of `fen2index`. -/
def connect_children [DecidableEq P] (g : Game P M) (entries : List (Entry P))
    (tb : List Node) : List Node :=
  entries.foldl (connectStep g entries) tb

/-- The invariant tying `fen2index` and `tb` together during enumeration
(spec I1 plus the seeding facts): ids are dense in insertion order, each
id indexes the table, and each table entry holds the seeded score with no
children. -/
def InvInit (g : Game P M) (s : InitState P) : Prop :=
  s.fen2index.map Entry.idx = List.range s.fen2index.length ∧
    s.tb.length = s.fen2index.length ∧
    ∀ e ∈ s.fen2index, s.tb[e.idx]? = some ⟨initScore g e.pos, []⟩

/-- A two-position toy instantiation of the chess interface, used as a
concrete input for witnesses: position 0 has one legal move leading to
position 1, which is a checkmate (no legal moves, in check). -/
def gameDemo : Game Nat Nat where
  legalMoves p := if p = 0 then [0] else []
  next _ _ := 1
  inCheck p := decide (p = 1)
  book _ := none
  allowed _ _ := true

/-- Observations of one legal opponent reply used by `allowed_move`
(matetb.cpp lines 152-160): its UCI and SAN strings, origin and destination
squares, and whether it is a capture. -/
structure RMove where
  uci : String
  san : String
  fromSq : Nat
  toSq : Nat
  isCapture : Bool
deriving DecidableEq

/-- Observations of a candidate move on its board used by `allowed_move`
(matetb.cpp lines 118-168): `pieceAtTo` is `board.at(move.to())`,
`toAttacked` is `board.isAttacked(move.to(), ~board.sideToMove())`, and
`replies` are the legal opponent moves after provisionally making the
move. -/
structure CMove where
  uci : String
  san : String
  fromSq : Nat
  toSq : Nat
  isCapture : Bool
  pieceAtTo : Char
  toAttacked : Bool
  replies : List RMove
deriving DecidableEq

/-- The move-restriction configuration held by `MateTB` (matetb.cpp lines
46-54), with square sets standing for the bitboards. -/
structure Config where
  mating_side : Bool
  excludeMoves : List String
  excludeSANs : List String
  BBexcludeFrom : List Nat
  BBexcludeTo : List Nat
  excludeCaptures : Bool
  excludeCapturesOf : List Char
  excludeToAttacked : Bool
  excludeToCapturable : Bool
  excludePromotionTo : List Char
  excludeAllowingCapture : Bool
  BBexcludeAllowingFrom : List Nat
  BBexcludeAllowingTo : List Nat
  excludeAllowingMoves : List String
  excludeAllowingSANs : List String
deriving DecidableEq

/-- `needToGenerateResponses` as computed in the constructor (matetb.cpp
lines 98-101); a bitboard tests truthy iff it is nonempty. -/
def needToGenerateResponses (cfg : Config) : Bool :=
  cfg.excludeToCapturable || cfg.excludeAllowingCapture ||
    decide (cfg.BBexcludeAllowingFrom ≠ []) || decide (cfg.BBexcludeAllowingTo ≠ []) ||
    decide (cfg.excludeAllowingMoves ≠ []) || decide (cfg.excludeAllowingSANs ≠ [])

/-- The per-reply rejection test of the response loop (matetb.cpp lines
153-160). -/
def rejectReply (cfg : Config) (m : CMove) (r : RMove) : Bool :=
  (cfg.excludeToCapturable && r.isCapture && decide (r.toSq = m.toSq)) ||
    (cfg.excludeAllowingCapture && r.isCapture) ||
    decide (r.fromSq ∈ cfg.BBexcludeAllowingFrom) ||
    decide (r.toSq ∈ cfg.BBexcludeAllowingTo) ||
    decide (r.uci ∈ cfg.excludeAllowingMoves) ||
    decide (r.san ∈ cfg.excludeAllowingSANs)

/-- The fifth character `uci[4]` of a UCI string (the promotion letter of a
length-5 UCI move). -/
def uciChar4 (u : String) : Char :=
  u.toList.getD 4 ' '

/-- `MateTB::allowed_move` (matetb.cpp lines 118-168, identical in
matetb_threaded.cpp lines 131-181), as the early-return chain of the
source.  `stm` is `board.sideToMove()` as "white?" (Bool). -/
def allowed_move (cfg : Config) (stm : Bool) (m : CMove) : Bool :=
  if stm ≠ cfg.mating_side then true
  else if m.uci ∈ cfg.excludeMoves then false
  else if m.san ∈ cfg.excludeSANs then false
  else if m.fromSq ∈ cfg.BBexcludeFrom then false
  else if m.toSq ∈ cfg.BBexcludeTo then false
  else if cfg.excludeCaptures = true ∧ m.isCapture = true then false
  else if cfg.excludeCaptures = false ∧ cfg.excludeCapturesOf ≠ [] ∧
      m.isCapture = true ∧ m.pieceAtTo.toLower ∈ cfg.excludeCapturesOf then false
  else if cfg.excludeToAttacked = true ∧ m.toAttacked = true then false
  else if cfg.excludePromotionTo ≠ [] ∧ m.uci.length = 5 ∧
      (uciChar4 m.uci).toLower ∈ cfg.excludePromotionTo then false
  else if needToGenerateResponses cfg = true ∧ m.replies.any (rejectReply cfg m) = true then
    false
  else true

/-- The spec's filter table (spec §4.1): the move is rejected iff at least
one configured filter rejects it.  Each disjunct is one row of the table,
stated independently of the others.  A promotion is a length-5 UCI move and
its promoted piece letter is `uci[4]`. -/
def specReject (cfg : Config) (m : CMove) : Prop :=
  m.uci ∈ cfg.excludeMoves ∨
  m.san ∈ cfg.excludeSANs ∨
  m.fromSq ∈ cfg.BBexcludeFrom ∨
  m.toSq ∈ cfg.BBexcludeTo ∨
  (cfg.excludeCaptures = true ∧ m.isCapture = true) ∨
  (m.isCapture = true ∧ m.pieceAtTo.toLower ∈ cfg.excludeCapturesOf) ∨
  (cfg.excludeToAttacked = true ∧ m.toAttacked = true) ∨
  (m.uci.length = 5 ∧ (uciChar4 m.uci).toLower ∈ cfg.excludePromotionTo) ∨
  (cfg.excludeToCapturable = true ∧ ∃ r ∈ m.replies, r.isCapture = true ∧ r.toSq = m.toSq) ∨
  (cfg.excludeAllowingCapture = true ∧ ∃ r ∈ m.replies, r.isCapture = true) ∨
  (∃ r ∈ m.replies, r.fromSq ∈ cfg.BBexcludeAllowingFrom) ∨
  (∃ r ∈ m.replies, r.toSq ∈ cfg.BBexcludeAllowingTo) ∨
  (∃ r ∈ m.replies, r.uci ∈ cfg.excludeAllowingMoves) ∨
  (∃ r ∈ m.replies, r.san ∈ cfg.excludeAllowingSANs)

/-- An all-empty filter configuration with WHITE as mating side, used as a
concrete input for witnesses. -/
def cfgDemo : Config :=
  ⟨true, [], [], [], [], false, [], false, false, [], false, [], [], [], []⟩

/-- A concrete candidate-move observation used for witnesses. -/
def mDemo : CMove :=
  ⟨"e2e4", "e4", 12, 28, false, ' ', false, []⟩

/-- The default value of `--epd` (matetb.hpp line 84). -/
def epdDefault : String := "8/8/8/1p6/6k1/1p2Q3/p1p1p3/rbrbK3 w - - bm #36;"

/-- Character-level splitter: `acc` holds the (reversed) characters of the
current item; blanks end an item and empty items are dropped. -/
def splitChars : List Char → List Char → List String
  | [], acc => if acc.isEmpty then [] else [String.mk acc.reverse]
  | c :: rest, acc =>
    if c = ' ' then
      if acc.isEmpty then splitChars rest []
      else String.mk acc.reverse :: splitChars rest []
    else splitChars rest (c :: acc)

/-- `split` from matetb.hpp lines 21-34: `std::getline` on the blank
delimiter, skipping empty items. -/
def split (s : String) : List String :=
  splitChars s.toList []

/-- The name of the `--epd` argument. -/
def epdName : String := "epd"

/-- A model of argparse's `get`: the last-supplied value of a named
argument, or its declared default when the invocation does not supply it.
`args` is the list of (name, value) pairs present on the command line. -/
def getArg (args : List (String × String)) (name default_value : String) : String :=
  ((args.find? fun a => decide (a.1 = name)).map Prod.snd).getD default_value

/-- `epdStr = args.get("epd")` (matetb.hpp line 167) with the declared
default of matetb.hpp line 84. -/
def optionsEpdStr (args : List (String × String)) : String :=
  getArg args epdName epdDefault

/-- The fatal-input test of the `MateTB` constructor (matetb.cpp lines
64-68): `parts.size() < 4` aborts with exit code 1. -/
def epd_too_short (epd : String) : Bool :=
  decide ((split epd).length < 4)

/-- The token read of the `bm` tag. -/
def bmTok : String := "bm"

/-- Scan of a character list for an adjacent pair `#`, `-`. -/
def containsHashMinusChars : List Char → Bool
  | [] => false
  | [_] => false
  | c1 :: c2 :: rest =>
    if c1 = '#' ∧ c2 = '-' then true else containsHashMinusChars (c2 :: rest)

/-- `s.find("#-") != std::string::npos`: `s` contains the substring
`"#-"`. -/
def containsHashMinus (s : String) : Bool :=
  containsHashMinusChars s.toList

/-- The loop body of the mating-side inversion scan (matetb.cpp lines
72-76) on the token suffix starting at index `i`: at a token equal to
`"bm"` the code reads `parts[i + 1]` with no bounds check; `none` models
that out-of-bounds read (`i + 1 = parts.size()`), `some b` a completed scan
with `b` recording whether the side was inverted. -/
def bmScanGo : List String → Option Bool
  | [] => some false
  | x :: rest =>
    if x = bmTok then
      match rest with
      | [] => none
      | y :: _ => if containsHashMinus y then some true else bmScanGo rest
    else bmScanGo rest

/-- The mating-side inversion scan `for (size_t i = 4; i < parts.size();
++i) ...` (matetb.cpp lines 72-76, identical in matetb_threaded.cpp lines
84-88). -/
def invert_mating_scan (parts : List String) : Option Bool :=
  bmScanGo (parts.drop 4)

/-- An EPD whose final token is `bm`, used to exhibit the out-of-bounds
read of C10. -/
def epdBmLast : String := "8/8/8/8/8/8/8/K6k w - - bm"

/-- All scores of a table lie in `[-VALUE_MATE, VALUE_MATE - 1]`.  Seeded
tables satisfy this (scores are `0` or `-VALUE_MATE`), and every
`generate_tb` update preserves it. -/
def scoresInRange (tb : List Node) : Prop :=
  ∀ n ∈ tb, -VALUE_MATE ≤ n.score ∧ n.score ≤ VALUE_MATE - 1

/-- A two-node seeded table: node 1 is a checkmate, node 0 has node 1 as
its only child.  Used as concrete input for witnesses. -/
def tbDemo : List Node :=
  [⟨0, [1]⟩, ⟨-VALUE_MATE, []⟩]

end MateTB

namespace MateTB

/-- **C5** (corrected claim, counterexample part).  The spec's propagate law
`propagate(propagate(S)) = S - 2*sgn(S)` fails at the in-range non-zero
score `S = 1`: `propagate 1 = 0` and `propagate 0 = 0`, but the law demands
`-1`. -/
theorem propagate_law_fails_at_one :
    (1 : Int) ≠ 0 ∧ -VALUE_MATE ≤ (1 : Int) ∧ (1 : Int) ≤ VALUE_MATE ∧
      propagate (propagate 1) ≠ 1 - 2 * Int.sign 1 := by
  refine ⟨by decide, by decide, by decide, ?_⟩
  decide

/-- **C5** (corrected claim, amended part).  For every non-zero score `S`
with `-MATE ≤ S ≤ MATE` **and `|S| ≥ 2`**, applying the propagation rule
twice yields `S - 2*sgn(S)`; moreover `propagate 0 = 0`, and at the two
boundary scores `S = 1` and `S = -1` excluded by the amendment the double
application yields `0` instead. -/
theorem propagate_propagate_eq :
    (∀ s : Int, s ≠ 0 → -VALUE_MATE ≤ s → s ≤ VALUE_MATE → s ≠ 1 → s ≠ -1 →
      propagate (propagate s) = s - 2 * Int.sign s) ∧
    propagate 0 = 0 ∧ propagate (propagate 1) = 0 ∧ propagate (propagate (-1)) = 0 := by
  refine ⟨?_, by decide, by decide, by decide⟩
  intro s hs _ _ h1 hm1
  rcases lt_trichotomy s 0 with hneg | hzero | hpos
  · rw [Int.sign_eq_neg_one_of_neg hneg]
    simp only [propagate]
    split_ifs <;> omega
  · exact absurd hzero hs
  · rw [Int.sign_eq_one_of_pos hpos]
    simp only [propagate]
    split_ifs <;> omega

/-- Witness for `propagate_propagate_eq` at `S = 5`. -/
theorem propagate_propagate_eq_witness :
    propagate (propagate 5) = 5 - 2 * Int.sign 5 :=
  propagate_propagate_eq.1 5 (by decide) (by decide) (by decide) (by decide) (by decide)

theorem propagate_in_range (s : Int) (h1 : -VALUE_MATE ≤ s) (h2 : s ≤ VALUE_MATE) :
    -(VALUE_MATE - 1) ≤ propagate s ∧ propagate s ≤ VALUE_MATE - 1 := by
  simp only [propagate, VALUE_MATE] at h1 h2 ⊢
  split_ifs <;> omega

theorem propagate_bounds (s : Int) (h1 : -VALUE_MATE ≤ s) (h2 : s ≤ VALUE_MATE - 1) :
    -VALUE_MATE + 2 ≤ propagate s ∧ propagate s ≤ VALUE_MATE - 1 := by
  simp only [propagate, VALUE_MATE] at h1 h2 ⊢
  split_ifs <;> omega

theorem tbGet_eq (tb : List Node) (c : Nat) (n : Node) (hg : tb[c]? = some n) :
    tbGet tb c = n.score := by
  unfold tbGet
  rw [hg]

theorem tbGet_none (tb : List Node) (c : Nat) (hg : tb[c]? = none) : tbGet tb c = 0 := by
  unfold tbGet
  rw [hg]

theorem tbGet_bounds (tb : List Node) (h : scoresInRange tb) (c : Nat) :
    -VALUE_MATE ≤ tbGet tb c ∧ tbGet tb c ≤ VALUE_MATE - 1 := by
  cases hg : tb[c]? with
  | none => rw [tbGet_none tb c hg]; norm_num [VALUE_MATE]
  | some n => rw [tbGet_eq tb c n hg]; exact h n (List.getElem?_mem hg)

theorem bestFold_spec (tb : List Node) (cs : List Nat) :
    ∀ b : Int, b < VALUE_NONE → (∀ c ∈ cs, propagate (tbGet tb c) < VALUE_NONE) →
      (bestFold tb b cs = b ∨ bestFold tb b cs ∈ cs.map fun c => propagate (tbGet tb c)) ∧
        b ≤ bestFold tb b cs ∧ ∀ c ∈ cs, propagate (tbGet tb c) ≤ bestFold tb b cs := by
  induction cs with
  | nil => intro b hb _; simp [bestFold]
  | cons c cs ih =>
    intro b hb hlt
    have hvlt : propagate (tbGet tb c) < VALUE_NONE := hlt c (List.mem_cons_self c cs)
    have hbne : ¬b = VALUE_NONE := by omega
    have hstep : bestFold tb b (c :: cs) =
        bestFold tb (if b < propagate (tbGet tb c) then propagate (tbGet tb c) else b) cs := by
      simp [bestFold, hbne]
    have hb2 : (if b < propagate (tbGet tb c) then propagate (tbGet tb c) else b) < VALUE_NONE := by
      split_ifs <;> omega
    have hrest : ∀ c' ∈ cs, propagate (tbGet tb c') < VALUE_NONE :=
      fun c' hc' => hlt c' (List.mem_cons_of_mem c hc')
    obtain ⟨hmem, hle, hall⟩ := ih _ hb2 hrest
    rw [hstep]
    refine ⟨?_, ?_, ?_⟩
    · rcases hmem with heq | hmem
      · rw [heq]
        split_ifs with hc
        · right; exact List.mem_cons_self _ _
        · left; rfl
      · right
        exact List.mem_cons_of_mem _ hmem
    · refine le_trans ?_ hle
      split_ifs <;> omega
    · intro c' hc'
      rcases List.mem_cons.mp hc' with rfl | hc'
      · refine le_trans ?_ hle
        split_ifs <;> omega
      · exact hall c' hc'

theorem bestScore_spec (tb : List Node) (cs : List Nat) (hne : cs ≠ [])
    (hlt : ∀ c ∈ cs, propagate (tbGet tb c) < VALUE_NONE) :
    (bestScore tb cs ∈ cs.map fun c => propagate (tbGet tb c)) ∧
      ∀ c ∈ cs, propagate (tbGet tb c) ≤ bestScore tb cs := by
  cases cs with
  | nil => exact absurd rfl hne
  | cons c cs =>
    have hvlt : propagate (tbGet tb c) < VALUE_NONE := hlt c (List.mem_cons_self c cs)
    have hrest : ∀ c' ∈ cs, propagate (tbGet tb c') < VALUE_NONE :=
      fun c' hc' => hlt c' (List.mem_cons_of_mem c hc')
    have hstep : bestScore tb (c :: cs) = bestFold tb (propagate (tbGet tb c)) cs := by
      simp [bestScore, bestFold]
    obtain ⟨hmem, hle, hall⟩ := bestFold_spec tb cs (propagate (tbGet tb c)) hvlt hrest
    rw [hstep]
    refine ⟨?_, ?_⟩
    · rcases hmem with heq | hmem
      · rw [heq]; exact List.mem_cons_self _ _
      · exact List.mem_cons_of_mem _ hmem
    · intro c' hc'
      rcases List.mem_cons.mp hc' with rfl | hc'
      · exact hle
      · exact hall c' hc'

theorem bestScore_nil (tb : List Node) : bestScore tb [] = VALUE_NONE := rfl

theorem passAux_succ (tb : List Node) (i c : Nat) :
    passAux tb (i + 1) c =
      match tb[i]? with
      | none => passAux tb i c
      | some node =>
        let best := bestScore tb node.children
        if best ≠ VALUE_NONE ∧ node.score ≠ best then
          passAux (tb.set i ⟨best, node.children⟩) i (c + 1)
        else passAux tb i c := rfl

theorem passAux_succ_none (tb : List Node) (i c : Nat) (hg : tb[i]? = none) :
    passAux tb (i + 1) c = passAux tb i c := by
  rw [passAux_succ, hg]

theorem passAux_succ_some (tb : List Node) (i c : Nat) (node : Node) (hg : tb[i]? = some node) :
    passAux tb (i + 1) c =
      if bestScore tb node.children ≠ VALUE_NONE ∧ node.score ≠ bestScore tb node.children then
        passAux (tb.set i ⟨bestScore tb node.children, node.children⟩) i (c + 1)
      else passAux tb i c := by
  rw [passAux_succ, hg]

theorem passAux_changed_le (i : Nat) : ∀ (tb : List Node) (c : Nat), c ≤ (passAux tb i c).2 := by
  induction i with
  | zero => intro tb c; simp [passAux]
  | succ i ih =>
    intro tb c
    cases hg : tb[i]? with
    | none => rw [passAux_succ_none tb i c hg]; exact ih tb c
    | some node =>
      rw [passAux_succ_some tb i c node hg]
      split_ifs with hb
      · exact le_trans (Nat.le_succ c) (ih _ _)
      · exact ih tb c

theorem passAux_fix (i : Nat) :
    ∀ (tb : List Node) (c : Nat), (passAux tb i c).2 = c → (passAux tb i c).1 = tb := by
  induction i with
  | zero => intro tb c _; simp [passAux]
  | succ i ih =>
    intro tb c h
    cases hg : tb[i]? with
    | none =>
      rw [passAux_succ_none tb i c hg] at h ⊢
      exact ih tb c h
    | some node =>
      rw [passAux_succ_some tb i c node hg] at h ⊢
      split_ifs at h ⊢ with hb
      · have := passAux_changed_le i (tb.set i ⟨bestScore tb node.children, node.children⟩) (c + 1)
        omega
      · exact ih tb c h

theorem passAux_no_change (i : Nat) :
    ∀ (tb : List Node) (c : Nat), (passAux tb i c).2 = c →
      ∀ j, j < i → ∀ node, tb[j]? = some node →
        bestScore tb node.children = VALUE_NONE ∨ node.score = bestScore tb node.children := by
  induction i with
  | zero => intro tb c _ j hj; omega
  | succ i ih =>
    intro tb c h j hj node hnode
    cases hg : tb[i]? with
    | none =>
      rw [passAux_succ_none tb i c hg] at h
      rcases Nat.lt_succ_iff_lt_or_eq.mp hj with hj2 | rfl
      · exact ih tb c h j hj2 node hnode
      · rw [hg] at hnode; cases hnode
    | some nd =>
      rw [passAux_succ_some tb i c nd hg] at h
      split_ifs at h with hb
      · have := passAux_changed_le i (tb.set i ⟨bestScore tb nd.children, nd.children⟩) (c + 1)
        omega
      · rcases Nat.lt_succ_iff_lt_or_eq.mp hj with hj2 | rfl
        · exact ih tb c h j hj2 node hnode
        · rw [hg] at hnode
          have e : nd = node := by injection hnode
          rw [e] at hb
          push_neg at hb
          by_cases hn : bestScore tb node.children = VALUE_NONE
          · exact Or.inl hn
          · exact Or.inr (hb hn)

theorem tbGet_set (tb : List Node) (i j : Nat) (node : Node) :
    tbGet (tb.set i node) j = if i = j ∧ j < tb.length then node.score else tbGet tb j := by
  by_cases hij : i = j
  · subst hij
    by_cases hlen : i < tb.length
    · have hg : (tb.set i node)[i]? = some node := by
        rw [List.getElem?_set, if_pos rfl, if_pos hlen]
      rw [tbGet_eq _ _ _ hg]
      simp [hlen]
    · have hg : (tb.set i node)[i]? = none := by
        rw [List.getElem?_set, if_pos rfl, if_neg hlen]
      rw [tbGet_none _ _ hg, if_neg (by simp [hlen])]
      have hg2 : tb[i]? = none := List.getElem?_eq_none_iff.mpr (by omega)
      rw [tbGet_none _ _ hg2]
  · have hg : (tb.set i node)[j]? = tb[j]? := by
      rw [List.getElem?_set, if_neg hij]
    have heq : tbGet (tb.set i node) j = tbGet tb j := by
      unfold tbGet
      rw [hg]
    rw [heq, if_neg (by simp [hij])]

theorem scoresInRange_set (tb : List Node) (i : Nat) (node : Node)
    (h : scoresInRange tb) (hnode : -VALUE_MATE ≤ node.score ∧ node.score ≤ VALUE_MATE - 1) :
    scoresInRange (tb.set i node) := by
  intro n hn
  rcases List.mem_or_eq_of_mem_set hn with hn' | rfl
  · exact h n hn'
  · exact hnode

theorem propagate_tbGet_lt_none (tb : List Node) (h : scoresInRange tb) (c : Nat) :
    propagate (tbGet tb c) < VALUE_NONE := by
  obtain ⟨h1, h2⟩ := tbGet_bounds tb h c
  obtain ⟨_, h4⟩ := propagate_in_range (tbGet tb c) h1 (by omega)
  simp only [VALUE_NONE, VALUE_MATE] at h4 ⊢
  omega

theorem bestScore_written_range (tb : List Node) (cs : List Nat) (h : scoresInRange tb)
    (hne : bestScore tb cs ≠ VALUE_NONE) :
    -VALUE_MATE + 2 ≤ bestScore tb cs ∧ bestScore tb cs ≤ VALUE_MATE - 1 := by
  cases hcs : cs with
  | nil => rw [hcs] at hne; exact absurd (bestScore_nil tb) hne
  | cons c cs' =>
    obtain ⟨hmem, _⟩ := bestScore_spec tb (c :: cs') (by simp)
      (fun c' _ => propagate_tbGet_lt_none tb h c')
    rw [List.mem_map] at hmem
    obtain ⟨c', _, heq⟩ := hmem
    obtain ⟨hb1, hb2⟩ := tbGet_bounds tb h c'
    obtain ⟨hp1, hp2⟩ := propagate_bounds (tbGet tb c') hb1 hb2
    rw [← heq]
    exact ⟨hp1, hp2⟩

theorem passAux_range_reflect (i : Nat) :
    ∀ (tb : List Node) (c : Nat), scoresInRange tb →
      scoresInRange (passAux tb i c).1 ∧
        ∀ j, tbGet (passAux tb i c).1 j = -VALUE_MATE → tbGet tb j = -VALUE_MATE := by
  induction i with
  | zero => intro tb c h; exact ⟨h, fun j hj => hj⟩
  | succ i ih =>
    intro tb c h
    cases hg : tb[i]? with
    | none => rw [passAux_succ_none tb i c hg]; exact ih tb c h
    | some node =>
      rw [passAux_succ_some tb i c node hg]
      split_ifs with hb
      · have hwr := bestScore_written_range tb node.children h hb.1
        have hset : scoresInRange (tb.set i ⟨bestScore tb node.children, node.children⟩) := by
          refine scoresInRange_set tb i _ h ⟨?_, ?_⟩
          · show -VALUE_MATE ≤ bestScore tb node.children
            omega
          · show bestScore tb node.children ≤ VALUE_MATE - 1
            omega
        obtain ⟨hr, hrefl⟩ := ih _ (c + 1) hset
        refine ⟨hr, fun j hj => ?_⟩
        have h2 := hrefl j hj
        rw [tbGet_set] at h2
        split_ifs at h2 with hc
        · exfalso
          have h3 : bestScore tb node.children = -VALUE_MATE := h2
          simp only [VALUE_MATE] at h3 hwr
          omega
        · exact h2
      · exact ih tb c h

theorem iteratePass_range_reflect (k : Nat) :
    ∀ tb : List Node, scoresInRange tb →
      scoresInRange (iteratePass tb k) ∧
        ∀ j, tbGet (iteratePass tb k) j = -VALUE_MATE → tbGet tb j = -VALUE_MATE := by
  induction k with
  | zero => intro tb h; exact ⟨h, fun j hj => hj⟩
  | succ k ih =>
    intro tb h
    obtain ⟨hp, hpr⟩ := passAux_range_reflect tb.length tb 0 h
    obtain ⟨hk, hkr⟩ := ih (pass tb).1 hp
    exact ⟨hk, fun j hj => hpr j (hkr j hj)⟩

theorem seed_scoresInRange (tb : List Node)
    (hseed : ∀ n ∈ tb, n.score = 0 ∨ n.score = -VALUE_MATE) : scoresInRange tb := by
  intro n hn
  rcases hseed n hn with h | h <;> rw [h] <;> norm_num [VALUE_MATE]

/-- **C1** (confirmed).  When `generate_tb` terminates — a full pass over
the table T (reached from a seeded table by some number `k` of passes)
produces zero changes — then for every index whose children list is
nonempty the stored score equals the maximum over children `c` of
`propagate(T[c].score)` (it is one of the propagated values and an upper
bound of all of them); no stored score equals `VALUE_NONE`; and running one
further full pass changes no scores. -/
theorem generate_tb_convergence (tb0 : List Node) (k : Nat)
    (hseed : ∀ n ∈ tb0, n.score = 0 ∨ n.score = -VALUE_MATE)
    (hconv : (pass (iteratePass tb0 k)).2 = 0) :
    (∀ (i : Nat) (node : Node), (iteratePass tb0 k)[i]? = some node → node.children ≠ [] →
        (node.score ∈ node.children.map fun c => propagate (tbGet (iteratePass tb0 k) c)) ∧
          ∀ c ∈ node.children, propagate (tbGet (iteratePass tb0 k) c) ≤ node.score) ∧
      (∀ n ∈ iteratePass tb0 k, n.score ≠ VALUE_NONE) ∧
      (pass (iteratePass tb0 k)).1 = iteratePass tb0 k ∧
      (pass (pass (iteratePass tb0 k)).1).2 = 0 := by
  have hrange : scoresInRange (iteratePass tb0 k) :=
    (iteratePass_range_reflect k tb0 (seed_scoresInRange tb0 hseed)).1
  have hfix : (pass (iteratePass tb0 k)).1 = iteratePass tb0 k :=
    passAux_fix (iteratePass tb0 k).length (iteratePass tb0 k) 0 hconv
  refine ⟨?_, ?_, hfix, by rw [hfix]; exact hconv⟩
  · intro i node hget hne
    have hi : i < (iteratePass tb0 k).length := by
      by_contra hcon
      rw [List.getElem?_eq_none_iff.mpr (by omega)] at hget
      cases hget
    have hnc := passAux_no_change (iteratePass tb0 k).length (iteratePass tb0 k) 0 hconv i hi
      node hget
    have hlt : ∀ c ∈ node.children, propagate (tbGet (iteratePass tb0 k) c) < VALUE_NONE :=
      fun c _ => propagate_tbGet_lt_none _ hrange c
    obtain ⟨hmem, hub⟩ := bestScore_spec (iteratePass tb0 k) node.children hne hlt
    rcases hnc with hnone | heq
    · exfalso
      rw [hnone] at hmem
      rw [List.mem_map] at hmem
      obtain ⟨c, hc, hceq⟩ := hmem
      exact absurd hceq (by have := hlt c hc; omega)
    · rw [heq]
      exact ⟨hmem, hub⟩
  · intro n hn
    have := hrange n hn
    simp only [VALUE_MATE] at this
    simp only [VALUE_NONE]
    omega

/-- Witness for `generate_tb_convergence` on the two-node table `tbDemo`,
which converges after one pass. -/
theorem generate_tb_convergence_witness :
    (∀ n ∈ iteratePass tbDemo 1, n.score ≠ VALUE_NONE) ∧
      (pass (iteratePass tbDemo 1)).1 = iteratePass tbDemo 1 :=
  ⟨(generate_tb_convergence tbDemo 1 (by decide) (by decide)).2.1,
   (generate_tb_convergence tbDemo 1 (by decide) (by decide)).2.2.1⟩

/-- **C9** (confirmed).  Propagation maps `[-MATE, MATE]` into
`[-(MATE-1), MATE-1]`; every score actually written by a `generate_tb`
update (a `bestScore` different from `VALUE_NONE`, over a table whose
scores are in range) lies in `[-MATE+2, MATE-1]`; hence over any run from a
seeded table a stored `-MATE` occurs only at indices seeded with `-MATE`,
and scoring never produces `VALUE_NONE` or a value outside
`[-MATE, MATE]`. -/
theorem generate_tb_score_ranges :
    (∀ x : Int, -VALUE_MATE ≤ x → x ≤ VALUE_MATE →
        -(VALUE_MATE - 1) ≤ propagate x ∧ propagate x ≤ VALUE_MATE - 1) ∧
      (∀ (tb : List Node) (cs : List Nat), scoresInRange tb →
        bestScore tb cs ≠ VALUE_NONE →
          -VALUE_MATE + 2 ≤ bestScore tb cs ∧ bestScore tb cs ≤ VALUE_MATE - 1) ∧
      ∀ (tb0 : List Node) (k : Nat),
        (∀ n ∈ tb0, n.score = 0 ∨ n.score = -VALUE_MATE) →
          (∀ j, tbGet (iteratePass tb0 k) j = -VALUE_MATE → tbGet tb0 j = -VALUE_MATE) ∧
            ∀ n ∈ iteratePass tb0 k,
              -VALUE_MATE ≤ n.score ∧ n.score ≤ VALUE_MATE ∧ n.score ≠ VALUE_NONE := by
  refine ⟨propagate_in_range, bestScore_written_range, ?_⟩
  intro tb0 k hseed
  obtain ⟨hr, hrefl⟩ := iteratePass_range_reflect k tb0 (seed_scoresInRange tb0 hseed)
  refine ⟨hrefl, fun n hn => ?_⟩
  have := hr n hn
  simp only [VALUE_MATE] at this
  simp only [VALUE_MATE, VALUE_NONE]
  exact ⟨by omega, by omega, by omega⟩

/-- Witness for `generate_tb_score_ranges` on `tbDemo`. -/
theorem generate_tb_score_ranges_witness :
    (∀ j, tbGet (iteratePass tbDemo 1) j = -VALUE_MATE → tbGet tbDemo j = -VALUE_MATE) ∧
      ∀ n ∈ iteratePass tbDemo 1,
        -VALUE_MATE ≤ n.score ∧ n.score ≤ VALUE_MATE ∧ n.score ≠ VALUE_NONE :=
  generate_tb_score_ranges.2.2 tbDemo 1 (by decide)

theorem bmScanGo_isSome (l : List String) : l.getLast? ≠ some bmTok →
    (bmScanGo l).isSome = true := by
  induction l with
  | nil => intro _; rfl
  | cons x rest ih =>
    intro h
    cases rest with
    | nil =>
      have hx : x ≠ bmTok := by
        simpa [List.getLast?_singleton] using h
      simp [bmScanGo, hx]
    | cons y t =>
      have h2 : (y :: t).getLast? ≠ some bmTok := by
        rwa [List.getLast?_cons_cons] at h
      by_cases hx : x = bmTok
      · simp only [bmScanGo, hx, if_true]
        by_cases hy : containsHashMinus y
        · simp [hy]
        · simp only [hy, if_false]
          exact ih h2
      · simp only [bmScanGo, hx, if_false]
        exact ih h2

theorem getLast?_drop_ne (v : String) :
    ∀ (n : Nat) (l : List String), l.getLast? ≠ some v → (l.drop n).getLast? ≠ some v := by
  intro n
  induction n with
  | zero => intro l h; simpa using h
  | succ n ih =>
    intro l h
    cases l with
    | nil => simp
    | cons x t =>
      rw [List.drop_succ_cons]
      apply ih
      cases t with
      | nil => simp
      | cons y t2 => rwa [List.getLast?_cons_cons] at h

/-- **C10** (confirmed).  The mating-side inversion scan reads
`parts[i + 1]` at every index `i ≥ 4` holding `"bm"` with no bounds check.
Whenever `"bm"` is not the final token the scan completes without an
out-of-bounds read (every such read has `i + 1 < parts.size()`); and for a
concrete EPD whose last token is `"bm"` — here `split epdBmLast`, five
tokens with `parts[4] = "bm"` — the read index `i + 1 = 5` equals the token
vector's size, and the lookup yields no value (the scan hits the
out-of-bounds read, modelled as `none`). -/
theorem invert_mating_scan_bounds :
    (∀ parts : List String, parts.getLast? ≠ some bmTok →
        (invert_mating_scan parts).isSome = true) ∧
      (split epdBmLast).length = 5 ∧
      (split epdBmLast).getLast? = some bmTok ∧
      (split epdBmLast)[4]? = some bmTok ∧
      (split epdBmLast)[5]? = none ∧
      invert_mating_scan (split epdBmLast) = none := by
  refine ⟨?_, ?_, ?_, ?_, ?_, ?_⟩
  · intro parts h
    exact bmScanGo_isSome _ (getLast?_drop_ne bmTok 4 parts h)
  all_goals decide

/-- Witness for `invert_mating_scan_bounds` on the tokens of the default
EPD, whose final token is `"#36;"`. -/
theorem invert_mating_scan_bounds_witness :
    (invert_mating_scan (split epdDefault)).isSome = true :=
  invert_mating_scan_bounds.1 (split epdDefault) (by decide)

/-- **C8** (corrected claim, counterexample part).  `--epd` is optional:
an invocation that supplies no arguments at all yields the declared default
EPD (matetb.hpp line 84), which is not empty, has 6 tokens, and passes the
too-short check of the `MateTB` constructor, so the run proceeds with this
default root position. -/
theorem epd_flag_optional_counterexample :
    optionsEpdStr [] = epdDefault ∧ epdDefault ≠ "" ∧
      epd_too_short epdDefault = false ∧ (split epdDefault).length = 6 := by
  refine ⟨rfl, ?_, ?_, ?_⟩ <;> decide

/-- **C8** (corrected claim, amended part).  Every command-line flag is
optional, including `--epd`: an invocation that does not supply `--epd`
proceeds to a normal run whose root EPD is the declared default
`8/8/8/1p6/6k1/1p2Q3/p1p1p3/rbrbK3 w - - bm #36;`, which is not rejected
as too short. -/
theorem epd_flag_optional (args : List (String × String))
    (h : (args.find? fun a => decide (a.1 = epdName)) = none) :
    optionsEpdStr args = epdDefault ∧ epd_too_short (optionsEpdStr args) = false := by
  have heq : optionsEpdStr args = epdDefault := by
    simp [optionsEpdStr, getArg, h]
  refine ⟨heq, ?_⟩
  rw [heq]
  decide

/-- Witness for `epd_flag_optional` on the empty invocation. -/
theorem epd_flag_optional_witness :
    optionsEpdStr [] = epdDefault ∧ epd_too_short (optionsEpdStr []) = false :=
  epd_flag_optional [] rfl

theorem rejectReply_any_iff (cfg : Config) (m : CMove) :
    m.replies.any (rejectReply cfg m) = true ↔
      ((cfg.excludeToCapturable = true ∧ ∃ r ∈ m.replies, r.isCapture = true ∧ r.toSq = m.toSq) ∨
        (cfg.excludeAllowingCapture = true ∧ ∃ r ∈ m.replies, r.isCapture = true) ∨
        (∃ r ∈ m.replies, r.fromSq ∈ cfg.BBexcludeAllowingFrom) ∨
        (∃ r ∈ m.replies, r.toSq ∈ cfg.BBexcludeAllowingTo) ∨
        (∃ r ∈ m.replies, r.uci ∈ cfg.excludeAllowingMoves) ∨
        ∃ r ∈ m.replies, r.san ∈ cfg.excludeAllowingSANs) := by
  rw [List.any_eq_true]
  simp only [rejectReply, Bool.or_eq_true, Bool.and_eq_true, decide_eq_true_eq]
  constructor
  · rintro ⟨r, hr, h⟩
    rcases h with ((((h | h) | h) | h) | h) | h
    · exact Or.inl ⟨h.1.1, r, hr, h.1.2, h.2⟩
    · exact Or.inr (Or.inl ⟨h.1, r, hr, h.2⟩)
    · exact Or.inr (Or.inr (Or.inl ⟨r, hr, h⟩))
    · exact Or.inr (Or.inr (Or.inr (Or.inl ⟨r, hr, h⟩)))
    · exact Or.inr (Or.inr (Or.inr (Or.inr (Or.inl ⟨r, hr, h⟩))))
    · exact Or.inr (Or.inr (Or.inr (Or.inr (Or.inr ⟨r, hr, h⟩))))
  · rintro (⟨hf, r, hr, h1, h2⟩ | ⟨hf, r, hr, h1⟩ | ⟨r, hr, h1⟩ | ⟨r, hr, h1⟩ | ⟨r, hr, h1⟩ |
      ⟨r, hr, h1⟩) <;> exact ⟨r, hr, by tauto⟩

theorem rejectReply_need (cfg : Config) (m : CMove)
    (h : m.replies.any (rejectReply cfg m) = true) : needToGenerateResponses cfg = true := by
  rw [rejectReply_any_iff] at h
  simp only [needToGenerateResponses, Bool.or_eq_true, decide_eq_true_eq]
  rcases h with ⟨hf, _⟩ | ⟨hf, _⟩ | ⟨r, hr, hm⟩ | ⟨r, hr, hm⟩ | ⟨r, hr, hm⟩ | ⟨r, hr, hm⟩
  · tauto
  · tauto
  · have := List.ne_nil_of_mem hm
    tauto
  · have := List.ne_nil_of_mem hm
    tauto
  · have := List.ne_nil_of_mem hm
    tauto
  · have := List.ne_nil_of_mem hm
    tauto

/-- **C4** (confirmed).  For every board and candidate legal move,
`allowed_move` returns true whenever the side to move is not the mating
side; and when the side to move is the mating side it returns true iff
none of the configured filters rejects the move under its rejection
condition from the spec's filter table (`specReject`). -/
theorem allowed_move_iff_spec (cfg : Config) (stm : Bool) (m : CMove) :
    (stm ≠ cfg.mating_side → allowed_move cfg stm m = true) ∧
      (stm = cfg.mating_side → (allowed_move cfg stm m = true ↔ ¬specReject cfg m)) := by
  constructor
  · intro h
    simp [allowed_move, h]
  · intro hstm
    rw [allowed_move, if_neg (by simp [hstm])]
    split_ifs with h1 h2 h3 h4 h5 h6 h7 h8 h9
    · refine iff_of_false (by simp) (not_not_intro ?_)
      exact Or.inl h1
    · refine iff_of_false (by simp) (not_not_intro ?_)
      exact Or.inr (Or.inl h2)
    · refine iff_of_false (by simp) (not_not_intro ?_)
      exact Or.inr (Or.inr (Or.inl h3))
    · refine iff_of_false (by simp) (not_not_intro ?_)
      exact Or.inr (Or.inr (Or.inr (Or.inl h4)))
    · refine iff_of_false (by simp) (not_not_intro ?_)
      exact Or.inr (Or.inr (Or.inr (Or.inr (Or.inl h5))))
    · refine iff_of_false (by simp) (not_not_intro ?_)
      exact Or.inr (Or.inr (Or.inr (Or.inr (Or.inr (Or.inl ⟨h6.2.2.1, h6.2.2.2⟩)))))
    · refine iff_of_false (by simp) (not_not_intro ?_)
      exact Or.inr (Or.inr (Or.inr (Or.inr (Or.inr (Or.inr (Or.inl h7))))))
    · refine iff_of_false (by simp) (not_not_intro ?_)
      exact Or.inr (Or.inr (Or.inr (Or.inr (Or.inr (Or.inr (Or.inr
        (Or.inl ⟨h8.2.1, h8.2.2⟩)))))))
    · refine iff_of_false (by simp) (not_not_intro ?_)
      have hh := (rejectReply_any_iff cfg m).mp h9.2
      exact Or.inr (Or.inr (Or.inr (Or.inr (Or.inr (Or.inr (Or.inr (Or.inr hh)))))))
    · refine iff_of_true rfl ?_
      intro hsp
      unfold specReject at hsp
      rcases hsp with h | h | h | h | h | h | h | h | h | h | h | h | h | h
      · exact h1 h
      · exact h2 h
      · exact h3 h
      · exact h4 h
      · exact h5 h
      · cases hcap : cfg.excludeCaptures with
        | true => exact h5 ⟨hcap, h.1⟩
        | false => exact h6 ⟨hcap, List.ne_nil_of_mem h.2, h.1, h.2⟩
      · exact h7 h
      · exact h8 ⟨List.ne_nil_of_mem h.2, h⟩
      · have hany := (rejectReply_any_iff cfg m).mpr (Or.inl h)
        exact h9 ⟨rejectReply_need cfg m hany, hany⟩
      · have hany := (rejectReply_any_iff cfg m).mpr (Or.inr (Or.inl h))
        exact h9 ⟨rejectReply_need cfg m hany, hany⟩
      · have hany := (rejectReply_any_iff cfg m).mpr (Or.inr (Or.inr (Or.inl h)))
        exact h9 ⟨rejectReply_need cfg m hany, hany⟩
      · have hany := (rejectReply_any_iff cfg m).mpr (Or.inr (Or.inr (Or.inr (Or.inl h))))
        exact h9 ⟨rejectReply_need cfg m hany, hany⟩
      · have hany := (rejectReply_any_iff cfg m).mpr
          (Or.inr (Or.inr (Or.inr (Or.inr (Or.inl h)))))
        exact h9 ⟨rejectReply_need cfg m hany, hany⟩
      · have hany := (rejectReply_any_iff cfg m).mpr
          (Or.inr (Or.inr (Or.inr (Or.inr (Or.inr h)))))
        exact h9 ⟨rejectReply_need cfg m hany, hany⟩

/-- Witness for `allowed_move_iff_spec` on the empty configuration and the
concrete move `mDemo` with WHITE to move (the mating side). -/
theorem allowed_move_iff_spec_witness :
    allowed_move cfgDemo true mDemo = true ↔ ¬specReject cfgDemo mDemo :=
  (allowed_move_iff_spec cfgDemo true mDemo).2 rfl

theorem initStep_cons_eq [DecidableEq P] [DecidableEq M] (g : Game P M) (maxDepth : Nat)
    (es : List (Entry P)) (tb : List Node) (p : P) (d : Nat) (rest : List (P × Nat)) :
    initStep g maxDepth ⟨es, tb, (p, d) :: rest⟩ =
      if maxDepth < d then none
      else if (lookupIdx es p).isSome then some ⟨es, tb, rest⟩
      else if initScore g p ≠ 0 then
        some ⟨es ++ [⟨p, tb.length, d⟩], tb ++ [⟨initScore g p, []⟩], rest⟩
      else
        some ⟨es ++ [⟨p, tb.length, d⟩], tb ++ [⟨initScore g p, []⟩],
          rest ++ (spawn_allowed_children g p).map fun q => (q, d + 1)⟩ := rfl

theorem initStep_nil_eq [DecidableEq P] [DecidableEq M] (g : Game P M) (maxDepth : Nat)
    (es : List (Entry P)) (tb : List Node) :
    initStep g maxDepth ⟨es, tb, []⟩ = none := rfl

theorem initRun_succ [DecidableEq P] [DecidableEq M] (g : Game P M) (maxDepth fuel : Nat)
    (s : InitState P) :
    initRun g maxDepth (fuel + 1) s =
      match initStep g maxDepth s with
      | none => s
      | some s2 => initRun g maxDepth fuel s2 := rfl

theorem initStep_shape [DecidableEq P] [DecidableEq M] (g : Game P M) (maxDepth : Nat)
    (s s2 : InitState P) (h : initStep g maxDepth s = some s2) :
    (s2.fen2index = s.fen2index ∧ s2.tb = s.tb) ∨
      ∃ p d, d ≤ maxDepth ∧ s2.fen2index = s.fen2index ++ [⟨p, s.tb.length, d⟩] ∧
        s2.tb = s.tb ++ [⟨initScore g p, []⟩] := by
  obtain ⟨es, tb, q⟩ := s
  cases q with
  | nil => rw [initStep_nil_eq] at h; cases h
  | cons hd rest =>
    obtain ⟨p, d⟩ := hd
    rw [initStep_cons_eq] at h
    split_ifs at h with hd1 hd2 hd3
    · injection h with h2
      subst h2
      exact Or.inl ⟨rfl, rfl⟩
    · injection h with h2
      subst h2
      exact Or.inr ⟨p, d, by omega, rfl, rfl⟩
    · injection h with h2
      subst h2
      exact Or.inr ⟨p, d, by omega, rfl, rfl⟩

theorem initScore_values (g : Game P M) (p : P) :
    initScore g p = 0 ∨ initScore g p = -VALUE_MATE := by
  unfold initScore
  split_ifs with h
  · exact Or.inr rfl
  · exact Or.inl rfl

theorem initScore_terminal (g : Game P M) (p : P) (h : (g.legalMoves p).length = 0) :
    initScore g p = if g.inCheck p = true then -VALUE_MATE else 0 := by
  unfold initScore
  by_cases hc : g.inCheck p = true
  · rw [if_pos ⟨h, hc⟩, if_pos hc]
  · rw [if_neg (by tauto), if_neg hc]

theorem initStep_inv [DecidableEq P] [DecidableEq M] (g : Game P M) (maxDepth : Nat)
    (s s2 : InitState P) (h : initStep g maxDepth s = some s2) (hinv : InvInit g s) :
    InvInit g s2 := by
  obtain ⟨hids, hlen, hent⟩ := hinv
  rcases initStep_shape g maxDepth s s2 h with ⟨he, ht⟩ | ⟨p, d, _, he, ht⟩
  · exact ⟨by rw [he]; exact hids, by rw [he, ht]; exact hlen, by rw [he, ht]; exact hent⟩
  · have hidx : ∀ e ∈ s.fen2index, e.idx < s.tb.length := by
      intro e he2
      have : e.idx ∈ s.fen2index.map Entry.idx := List.mem_map_of_mem Entry.idx he2
      rw [hids] at this
      rw [hlen]
      exact List.mem_range.mp this
    refine ⟨?_, ?_, ?_⟩
    · rw [he, List.map_append, hids, hlen, List.length_append]
      simp [List.range_succ]
    · rw [he, ht]
      simp [hlen]
    · intro e he2
      rw [he] at he2
      rcases List.mem_append.mp he2 with hold | hnew
      · rw [ht, List.getElem?_append, if_pos (hidx e hold)]
        exact hent e hold
      · rcases List.mem_singleton.mp hnew with rfl
        rw [ht]
        exact List.getElem?_concat_length s.tb ⟨initScore g p, []⟩

theorem initRun_inv [DecidableEq P] [DecidableEq M] (g : Game P M) (maxDepth : Nat)
    (fuel : Nat) : ∀ s : InitState P, InvInit g s → InvInit g (initRun g maxDepth fuel s) := by
  induction fuel with
  | zero => intro s h; exact h
  | succ fuel ih =>
    intro s h
    rw [initRun_succ]
    cases hstep : initStep g maxDepth s with
    | none => exact h
    | some s2 => exact ih s2 (initStep_inv g maxDepth s s2 hstep h)

theorem startState_inv [DecidableEq P] [DecidableEq M] (g : Game P M) (root : P) :
    InvInit g (startState root) := by
  refine ⟨rfl, rfl, ?_⟩
  intro e he
  cases he

theorem initRun_depth_le [DecidableEq P] [DecidableEq M] (g : Game P M) (maxDepth : Nat)
    (fuel : Nat) :
    ∀ s : InitState P, (∀ e ∈ s.fen2index, e.depth ≤ maxDepth) →
      ∀ e ∈ (initRun g maxDepth fuel s).fen2index, e.depth ≤ maxDepth := by
  induction fuel with
  | zero => intro s h; exact h
  | succ fuel ih =>
    intro s h
    rw [initRun_succ]
    cases hstep : initStep g maxDepth s with
    | none => exact h
    | some s2 =>
      refine ih s2 ?_
      rcases initStep_shape g maxDepth s s2 hstep with ⟨he, _⟩ | ⟨p, d, hd, he, _⟩
      · rw [he]; exact h
      · rw [he]
        intro e he2
        rcases List.mem_append.mp he2 with hold | hnew
        · exact h e hold
        · rcases List.mem_singleton.mp hnew with rfl
          exact hd

theorem initStep_none_iff [DecidableEq P] [DecidableEq M] (g : Game P M) (maxDepth : Nat)
    (s : InitState P) :
    initStep g maxDepth s = none ↔
      s.queue = [] ∨ ∃ p d rest, s.queue = (p, d) :: rest ∧ maxDepth < d := by
  obtain ⟨es, tb, q⟩ := s
  cases q with
  | nil => simp [initStep_nil_eq]
  | cons hd rest =>
    obtain ⟨p, d⟩ := hd
    rw [initStep_cons_eq]
    constructor
    · intro h
      split_ifs at h with hd1 hd2 hd3
      exact Or.inr ⟨p, d, rest, rfl, hd1⟩
    · rintro (h | ⟨p2, d2, rest2, heq, hgt⟩)
      · cases h
      · injection heq with h1 h2
        injection h1 with h1a h1b
        subst h1a; subst h1b
        rw [if_pos hgt]

theorem initStep_terminal_queue [DecidableEq P] [DecidableEq M] (g : Game P M)
    (maxDepth : Nat) (s : InitState P) (p : P) (d : Nat) (rest : List (P × Nat))
    (hq : s.queue = (p, d) :: rest) (hd : ¬maxDepth < d)
    (hnew : (lookupIdx s.fen2index p).isSome = false)
    (hterm : (g.legalMoves p).length = 0) :
    ∃ s2, initStep g maxDepth s = some s2 ∧ s2.queue = rest := by
  obtain ⟨es, tb, q⟩ := s
  simp only at hq hnew
  subst hq
  rw [initStep_cons_eq, if_neg hd, if_neg (by rw [hnew]; exact Bool.false_ne_true)]
  have hspawn : spawn_allowed_children g p = [] := by
    unfold spawn_allowed_children
    rw [List.length_eq_zero.mp hterm]
    rfl
  split_ifs with hsc
  · exact ⟨_, rfl, rfl⟩
  · refine ⟨_, rfl, ?_⟩
    rw [hspawn]
    simp

theorem connectStep_none [DecidableEq P] (g : Game P M) (entries : List (Entry P))
    (acc : List Node) (e : Entry P) (hg : acc[e.idx]? = none) :
    connectStep g entries acc e = acc := by
  unfold connectStep
  rw [hg]

theorem connectStep_some [DecidableEq P] (g : Game P M) (entries : List (Entry P))
    (acc : List Node) (e : Entry P) (node : Node) (hg : acc[e.idx]? = some node) :
    connectStep g entries acc e =
      if node.score ≠ 0 then acc
      else
        acc.set e.idx
          ⟨node.score,
           (g.legalMoves e.pos).filterMap fun m => lookupIdx entries (g.next e.pos m)⟩ := by
  unfold connectStep
  rw [hg]

theorem connectStep_getElem_ne [DecidableEq P] (g : Game P M) (entries : List (Entry P))
    (acc : List Node) (e : Entry P) (j : Nat) (hj : e.idx ≠ j) :
    (connectStep g entries acc e)[j]? = acc[j]? := by
  cases hg : acc[e.idx]? with
  | none => rw [connectStep_none g entries acc e hg]
  | some node =>
    rw [connectStep_some g entries acc e node hg]
    split_ifs with hs
    · rfl
    · rw [List.getElem?_set, if_neg hj]

theorem connect_fold_untouched [DecidableEq P] (g : Game P M) (entries : List (Entry P)) :
    ∀ (es : List (Entry P)) (acc : List Node) (i : Nat), (∀ e ∈ es, e.idx ≠ i) →
      (es.foldl (connectStep g entries) acc)[i]? = acc[i]? := by
  intro es
  induction es with
  | nil => intro acc i _; rfl
  | cons e es ih =>
    intro acc i h
    rw [List.foldl_cons]
    rw [ih (connectStep g entries acc e) i fun x hx => h x (List.mem_cons_of_mem e hx)]
    exact connectStep_getElem_ne g entries acc e i (h e (List.mem_cons_self e es))

theorem connect_fold_keep_nonzero [DecidableEq P] (g : Game P M) (entries : List (Entry P)) :
    ∀ (es : List (Entry P)) (acc : List Node) (i : Nat) (node : Node),
      acc[i]? = some node → node.score ≠ 0 →
      (es.foldl (connectStep g entries) acc)[i]? = some node := by
  intro es
  induction es with
  | nil => intro acc i node h _; exact h
  | cons e es ih =>
    intro acc i node h hs
    rw [List.foldl_cons]
    by_cases hei : e.idx = i
    · subst hei
      rw [connectStep_some g entries acc e node h, if_pos hs]
      exact ih acc e.idx node h hs
    · refine ih _ i node ?_ hs
      rw [connectStep_getElem_ne g entries acc e i hei]
      exact h

theorem connect_fold_set_zero [DecidableEq P] (g : Game P M) (entries : List (Entry P)) :
    ∀ (es : List (Entry P)) (e : Entry P),
      es.filter (fun x => decide (x.idx = e.idx)) = [e] →
      ∀ (acc : List Node) (node : Node), acc[e.idx]? = some node → node.score = 0 →
      (es.foldl (connectStep g entries) acc)[e.idx]? =
        some ⟨0, (g.legalMoves e.pos).filterMap fun m => lookupIdx entries (g.next e.pos m)⟩ := by
  intro es
  induction es with
  | nil => intro e hf; cases hf
  | cons x es ih =>
    intro e hf acc node hacc hz
    rw [List.foldl_cons]
    by_cases hx : x.idx = e.idx
    · rw [List.filter_cons_of_pos (by simpa using hx)] at hf
      injection hf with hx2 hf2
      rw [hx2]
      have hnone : ∀ y ∈ es, y.idx ≠ e.idx := by
        intro y hy
        have := List.filter_eq_nil_iff.mp hf2 y hy
        simpa using this
      rw [connect_fold_untouched g entries es _ e.idx hnone]
      have hlen : e.idx < acc.length := by
        by_contra hcon
        rw [List.getElem?_eq_none_iff.mpr (by omega)] at hacc
        cases hacc
      rw [connectStep_some g entries acc e node hacc, if_neg (by simpa using hz)]
      rw [List.getElem?_set, if_pos rfl, if_pos hlen, hz]
    · rw [List.filter_cons_of_neg (by simpa using hx)] at hf
      refine ih e hf _ node ?_ hz
      rw [connectStep_getElem_ne g entries acc x e.idx hx]
      exact hacc

theorem filter_eq_singleton_of_unique {α : Type} (p : α → Bool) (l : List α) (a0 : α)
    (hnd : l.Nodup) (hmem : a0 ∈ l) (hp : p a0 = true)
    (huniq : ∀ a ∈ l, p a = true → a = a0) : l.filter p = [a0] := by
  induction l with
  | nil => cases hmem
  | cons x t ih =>
    rcases List.mem_cons.mp hmem with rfl | hmem2
    · rw [List.filter_cons_of_pos hp]
      have ht0 : t.filter p = [] := by
        rw [List.filter_eq_nil_iff]
        intro a ha hpa
        have ha0 := huniq a (List.mem_cons_of_mem _ ha) hpa
        rw [ha0] at ha
        exact (List.nodup_cons.mp hnd).1 ha
      rw [ht0]
    · have hx : p x = false := by
        by_contra hcon
        have hx2 := huniq x (List.mem_cons_self x t) (by simpa using hcon)
        have hxt : x ∉ t := (List.nodup_cons.mp hnd).1
        rw [hx2] at hxt
        exact hxt hmem2
      rw [List.filter_cons_of_neg (by simp [hx])]
      exact ih (List.nodup_cons.mp hnd).2 hmem2
        fun a ha hpa => huniq a (List.mem_cons_of_mem x ha) hpa

theorem lookupIdx_mem [DecidableEq P] (m : List (Entry P)) (p : P) (i : Nat)
    (h : lookupIdx m p = some i) : ∃ e ∈ m, e.pos = p ∧ e.idx = i := by
  unfold lookupIdx at h
  cases hf : m.find? (fun e => decide (e.pos = p)) with
  | none => rw [hf] at h; cases h
  | some e =>
    rw [hf] at h
    injection h with h2
    refine ⟨e, List.mem_of_find?_eq_some hf, ?_, h2⟩
    have := List.find?_some hf
    simpa using this

theorem idxNodup_inj [DecidableEq P] (es : List (Entry P))
    (hnd : (es.map Entry.idx).Nodup) :
    ∀ e1 ∈ es, ∀ e2 ∈ es, e1.idx = e2.idx → e1 = e2 := by
  intro e1 h1 e2 h2 heq
  exact List.inj_on_of_nodup_map hnd h1 h2 heq

theorem lookupIdx_inj [DecidableEq P] (es : List (Entry P))
    (hnd : (es.map Entry.idx).Nodup) (p q : P) (i : Nat)
    (hp : lookupIdx es p = some i) (hq : lookupIdx es q = some i) : p = q := by
  obtain ⟨e1, he1, hp1, hi1⟩ := lookupIdx_mem es p i hp
  obtain ⟨e2, he2, hp2, hi2⟩ := lookupIdx_mem es q i hq
  have : e1 = e2 := idxNodup_inj es hnd e1 he1 e2 he2 (by omega)
  subst this
  rw [← hp1, ← hp2]

theorem count_filterMap_eq {α β : Type} [DecidableEq β] (f : α → Option β) (l : List α)
    (b : β) : (l.filterMap f).count b = (l.filter fun a => decide (f a = some b)).length := by
  induction l with
  | nil => rfl
  | cons a t ih =>
    cases hf : f a with
    | none =>
      rw [List.filterMap_cons_none hf, List.filter_cons_of_neg (by simp [hf]), ih]
    | some b2 =>
      rw [List.filterMap_cons_some hf]
      by_cases hb : b2 = b
      · subst hb
        rw [List.count_cons_self, List.filter_cons_of_pos (by simp [hf]), ih,
          List.length_cons]
      · rw [List.filter_cons_of_neg (by simp [hf, hb]), ← ih]
        simp [List.count_cons, hb]

theorem inv_idx_lt (g : Game P M) (s : InitState P) (hinv : InvInit g s) :
    ∀ e ∈ s.fen2index, e.idx < s.tb.length := by
  intro e he
  have hm : e.idx ∈ s.fen2index.map Entry.idx := List.mem_map_of_mem Entry.idx he
  rw [hinv.1] at hm
  rw [hinv.2.1]
  exact List.mem_range.mp hm

theorem inv_idx_nodup (g : Game P M) (s : InitState P) (hinv : InvInit g s) :
    (s.fen2index.map Entry.idx).Nodup := by
  rw [hinv.1]
  exact List.nodup_range _

theorem inv_surj (g : Game P M) (s : InitState P) (hinv : InvInit g s) :
    ∀ i, i < s.tb.length → ∃ e ∈ s.fen2index, e.idx = i := by
  intro i hi
  rw [hinv.2.1] at hi
  have hm : i ∈ List.range s.fen2index.length := List.mem_range.mpr hi
  rw [← hinv.1] at hm
  obtain ⟨e, he, heq⟩ := List.mem_map.mp hm
  exact ⟨e, he, heq⟩

theorem inv_filter_singleton [DecidableEq P] (g : Game P M) (s : InitState P)
    (hinv : InvInit g s) (e : Entry P) (he : e ∈ s.fen2index) :
    s.fen2index.filter (fun x => decide (x.idx = e.idx)) = [e] := by
  refine filter_eq_singleton_of_unique _ _ e
    (List.Nodup.of_map _ (inv_idx_nodup g s hinv)) he (by simp) ?_
  intro a ha hpa
  exact idxNodup_inj s.fen2index (inv_idx_nodup g s hinv) a ha e he (by simpa using hpa)

theorem connectStep_length [DecidableEq P] (g : Game P M) (entries : List (Entry P))
    (acc : List Node) (e : Entry P) : (connectStep g entries acc e).length = acc.length := by
  cases hg : acc[e.idx]? with
  | none => rw [connectStep_none g entries acc e hg]
  | some node =>
    rw [connectStep_some g entries acc e node hg]
    split_ifs
    · rfl
    · exact List.length_set acc _ _

theorem connect_fold_length [DecidableEq P] (g : Game P M) (entries : List (Entry P)) :
    ∀ (es : List (Entry P)) (acc : List Node),
      (es.foldl (connectStep g entries) acc).length = acc.length := by
  intro es
  induction es with
  | nil => intro acc; rfl
  | cons e es ih =>
    intro acc
    rw [List.foldl_cons, ih, connectStep_length]

theorem connect_children_length [DecidableEq P] (g : Game P M) (entries : List (Entry P))
    (tb : List Node) : (connect_children g entries tb).length = tb.length :=
  connect_fold_length g entries entries tb

/-- **C3** (confirmed).  (i) Every position inserted during enumeration
that has no legal moves is stored with score `-MATE` if in check and `0`
otherwise (stalemate unresolved), with empty children.  (ii) Such a
terminal position contributes no successors to the queue: the step that
inserts it pops the front and pushes nothing.  (iii) After child
connection, every node whose score is `-MATE` has an empty children list.
(iv) Every reachable (= inserted) position with no legal moves that is in
check carries exactly the encoding (score `-MATE`, empty children) after
connection. -/
theorem initialize_tb_terminal_encoding [DecidableEq P] [DecidableEq M] (g : Game P M)
    (maxDepth fuel : Nat) (root : P) :
    (∀ e ∈ (initRun g maxDepth fuel (startState root)).fen2index,
        (g.legalMoves e.pos).length = 0 →
          (initRun g maxDepth fuel (startState root)).tb[e.idx]? =
            some ⟨if g.inCheck e.pos = true then -VALUE_MATE else 0, []⟩) ∧
      (∀ (s : InitState P) (p : P) (d : Nat) (rest : List (P × Nat)),
        s.queue = (p, d) :: rest → ¬maxDepth < d →
          (lookupIdx s.fen2index p).isSome = false → (g.legalMoves p).length = 0 →
            ∃ s2, initStep g maxDepth s = some s2 ∧ s2.queue = rest) ∧
      (∀ n ∈ connect_children g (initRun g maxDepth fuel (startState root)).fen2index
          (initRun g maxDepth fuel (startState root)).tb,
        n.score = -VALUE_MATE → n.children = []) ∧
      ∀ e ∈ (initRun g maxDepth fuel (startState root)).fen2index,
        (g.legalMoves e.pos).length = 0 → g.inCheck e.pos = true →
          (connect_children g (initRun g maxDepth fuel (startState root)).fen2index
            (initRun g maxDepth fuel (startState root)).tb)[e.idx]? =
              some ⟨-VALUE_MATE, []⟩ := by
  have hinv : InvInit g (initRun g maxDepth fuel (startState root)) :=
    initRun_inv g maxDepth fuel (startState root) (startState_inv g root)
  refine ⟨?_, ?_, ?_, ?_⟩
  · intro e he hterm
    have h1 := hinv.2.2 e he
    rw [initScore_terminal g e.pos hterm] at h1
    exact h1
  · exact fun s p d rest => initStep_terminal_queue g maxDepth s p d rest
  · intro n hn hmate
    obtain ⟨i, hi⟩ := List.getElem?_of_mem hn
    have hilt : i < (initRun g maxDepth fuel (startState root)).tb.length := by
      have h2 : i < (connect_children g (initRun g maxDepth fuel (startState root)).fen2index
          (initRun g maxDepth fuel (startState root)).tb).length := by
        by_contra hcon
        rw [List.getElem?_eq_none_iff.mpr (by omega)] at hi
        cases hi
      rwa [connect_children_length] at h2
    obtain ⟨e, he, heq⟩ := inv_surj g _ hinv i hilt
    subst heq
    have hseed := hinv.2.2 e he
    rcases initScore_values g e.pos with h0 | hm
    · have hset := connect_fold_set_zero g
        (initRun g maxDepth fuel (startState root)).fen2index
        (initRun g maxDepth fuel (startState root)).fen2index e
        (inv_filter_singleton g _ hinv e he) _ _ hseed h0
      rw [← connect_children] at hset
      rw [hset] at hi
      injection hi with h2
      rw [← h2] at hmate
      exfalso
      have : (0 : Int) = -VALUE_MATE := hmate
      norm_num [VALUE_MATE] at this
    · have hkeep := connect_fold_keep_nonzero g
        (initRun g maxDepth fuel (startState root)).fen2index
        (initRun g maxDepth fuel (startState root)).fen2index _ e.idx
        ⟨initScore g e.pos, []⟩ hseed (by rw [hm]; norm_num [VALUE_MATE])
      rw [← connect_children] at hkeep
      rw [hkeep] at hi
      injection hi with h2
      rw [← h2]
  · intro e he hterm hcheck
    have hseed := hinv.2.2 e he
    have hsc : initScore g e.pos = -VALUE_MATE := by
      rw [initScore_terminal g e.pos hterm, if_pos hcheck]
    have hkeep := connect_fold_keep_nonzero g
      (initRun g maxDepth fuel (startState root)).fen2index
      (initRun g maxDepth fuel (startState root)).fen2index _ e.idx
      ⟨initScore g e.pos, []⟩ hseed (by rw [hsc]; norm_num [VALUE_MATE])
    rw [← connect_children] at hkeep
    rw [hkeep, hsc]

/-- Witness for `initialize_tb_terminal_encoding`: on the toy game, the
checkmate position 1 (inserted at depth 1 with id 1) is stored after
connection as score `-MATE` with empty children. -/
theorem initialize_tb_terminal_encoding_witness :
    (connect_children gameDemo (initRun gameDemo 5 3 (startState 0)).fen2index
        (initRun gameDemo 5 3 (startState 0)).tb)[(1 : Nat)]? =
      some ⟨-VALUE_MATE, []⟩ :=
  (initialize_tb_terminal_encoding gameDemo 5 3 0).2.2.2 ⟨1, 1, 1⟩ (by decide)
    (by decide) (by decide)

/-- **C6** (confirmed).  After child connection, for every node whose seed
score is `0`: its children list is exactly the ids of those legal
successors whose compact encoding is a key of `fen2index`, in
legal-move-generation order (one per generating move); in particular every
such successor's id appears in the children list, and — when distinct
legal moves lead to distinct successors, as in chess — each such id
appears exactly once. -/
theorem connect_children_complete [DecidableEq P] [DecidableEq M] (g : Game P M)
    (maxDepth fuel : Nat) (root : P) :
    ∀ e ∈ (initRun g maxDepth fuel (startState root)).fen2index,
      initScore g e.pos = 0 →
        (connect_children g (initRun g maxDepth fuel (startState root)).fen2index
            (initRun g maxDepth fuel (startState root)).tb)[e.idx]? =
          some ⟨0, (g.legalMoves e.pos).filterMap fun m =>
            lookupIdx (initRun g maxDepth fuel (startState root)).fen2index
              (g.next e.pos m)⟩ ∧
        (∀ m ∈ g.legalMoves e.pos, ∀ i,
          lookupIdx (initRun g maxDepth fuel (startState root)).fen2index
              (g.next e.pos m) = some i →
            i ∈ (g.legalMoves e.pos).filterMap fun m2 =>
              lookupIdx (initRun g maxDepth fuel (startState root)).fen2index
                (g.next e.pos m2)) ∧
        ((g.legalMoves e.pos).Nodup →
          (∀ m1 ∈ g.legalMoves e.pos, ∀ m2 ∈ g.legalMoves e.pos,
            g.next e.pos m1 = g.next e.pos m2 → m1 = m2) →
          ∀ m ∈ g.legalMoves e.pos, ∀ i,
            lookupIdx (initRun g maxDepth fuel (startState root)).fen2index
                (g.next e.pos m) = some i →
              ((g.legalMoves e.pos).filterMap fun m2 =>
                lookupIdx (initRun g maxDepth fuel (startState root)).fen2index
                  (g.next e.pos m2)).count i = 1) := by
  intro e he h0
  have hinv : InvInit g (initRun g maxDepth fuel (startState root)) :=
    initRun_inv g maxDepth fuel (startState root) (startState_inv g root)
  have hseed := hinv.2.2 e he
  rw [h0] at hseed
  refine ⟨?_, ?_, ?_⟩
  · have hset := connect_fold_set_zero g
      (initRun g maxDepth fuel (startState root)).fen2index
      (initRun g maxDepth fuel (startState root)).fen2index e
      (inv_filter_singleton g _ hinv e he) _ _ hseed rfl
    rw [← connect_children] at hset
    exact hset
  · intro m hm i hlook
    exact List.mem_filterMap.mpr ⟨m, hm, hlook⟩
  · intro hnd hinj m hm i hlook
    rw [count_filterMap_eq]
    have hfil : ((g.legalMoves e.pos).filter fun m2 =>
        decide (lookupIdx (initRun g maxDepth fuel (startState root)).fen2index
          (g.next e.pos m2) = some i)) = [m] := by
      refine filter_eq_singleton_of_unique _ _ m hnd hm (by simp [hlook]) ?_
      intro a ha hpa
      have hla : lookupIdx (initRun g maxDepth fuel (startState root)).fen2index
          (g.next e.pos a) = some i := by simpa using hpa
      have hnext : g.next e.pos a = g.next e.pos m :=
        lookupIdx_inj _ (inv_idx_nodup g _ hinv) _ _ i hla hlook
      exact hinj a ha m hm hnext
    rw [hfil]
    rfl

/-- Witness for `connect_children_complete`: on the toy game, node 0 (seed
score 0) receives exactly the id list of its in-map legal successors. -/
theorem connect_children_complete_witness :
    (connect_children gameDemo (initRun gameDemo 5 3 (startState 0)).fen2index
        (initRun gameDemo 5 3 (startState 0)).tb)[(0 : Nat)]? =
      some ⟨0, (gameDemo.legalMoves 0).filterMap fun m =>
        lookupIdx (initRun gameDemo 5 3 (startState 0)).fen2index (gameDemo.next 0 m)⟩ :=
  ((connect_children_complete gameDemo 5 3 0) ⟨0, 0, 0⟩ (by decide) (by decide)).1

theorem generate_tb_one (tb : List Node) : generate_tb 1 tb = (pass tb).1 := by
  show (if (pass tb).2 = 0 then (pass tb).1 else generate_tb 0 (pass tb).1) = (pass tb).1
  split_ifs <;> rfl

/-- **C7** (confirmed).  (a) The BFS loop stops exactly when the queue is
empty or the front entry's depth exceeds `max_depth`.  (b) Every inserted
map entry was inserted at depth at most `max_depth` — in particular no
position enters the map at depth `max_depth + 1`, so positions inserted at
depth `max_depth` never have their pushed candidate successors expanded.
(c) With `max_depth = 0` (and no move returning to the root, as the
side to move alternates in chess), the map contains exactly the root with
id 0 at depth 0, the loop has stopped, and after connection and scoring
the root's node is `⟨initScore g root, []⟩`, i.e. score `-MATE` iff the
root is checkmate and `0` otherwise, with no children. -/
theorem initialize_tb_depth_bound [DecidableEq P] [DecidableEq M] (g : Game P M) :
    (∀ (maxDepth : Nat) (s : InitState P), initStep g maxDepth s = none ↔
        s.queue = [] ∨ ∃ p d rest, s.queue = (p, d) :: rest ∧ maxDepth < d) ∧
      (∀ (maxDepth fuel : Nat) (root : P),
        ∀ e ∈ (initRun g maxDepth fuel (startState root)).fen2index,
          e.depth ≤ maxDepth) ∧
      ∀ root : P, (∀ m ∈ g.legalMoves root, g.next root m ≠ root) →
        (initRun g 0 2 (startState root)).fen2index = [⟨root, 0, 0⟩] ∧
        initStep g 0 (initRun g 0 2 (startState root)) = none ∧
        (generate_tb 1 (connect_children g (initRun g 0 2 (startState root)).fen2index
            (initRun g 0 2 (startState root)).tb))[(0 : Nat)]? =
          some ⟨initScore g root, []⟩ ∧
        initScore g root =
          (if (g.legalMoves root).length = 0 ∧ g.inCheck root = true then -VALUE_MATE
           else 0) := by
  refine ⟨fun maxDepth s => initStep_none_iff g maxDepth s, ?_, ?_⟩
  · intro maxDepth fuel root
    exact initRun_depth_le g maxDepth fuel (startState root) (fun e he => by cases he)
  · intro root hs
    have hstep1 : ∃ s1 : InitState P,
        initStep g 0 (startState root) = some s1 ∧
          s1.fen2index = [⟨root, 0, 0⟩] ∧ s1.tb = [⟨initScore g root, []⟩] ∧
          ∃ l : List P, s1.queue = l.map fun q => (q, 1) := by
      rw [show startState root = ⟨[], [], [(root, 0)]⟩ from rfl, initStep_cons_eq,
        if_neg (by omega),
        if_neg (show ¬((lookupIdx ([] : List (Entry P)) root).isSome = true) from
          Bool.false_ne_true)]
      split_ifs with hsc
      · exact ⟨_, rfl, rfl, rfl, [], rfl⟩
      · exact ⟨_, rfl, rfl, rfl, spawn_allowed_children g root, by simp⟩
    obtain ⟨s1, hstep1, he1, ht1, l, hq1⟩ := hstep1
    have hstop : initStep g 0 s1 = none := by
      obtain ⟨es1, tb1, q1⟩ := s1
      simp only at hq1
      subst hq1
      cases l with
      | nil => exact initStep_nil_eq g 0 es1 tb1
      | cons q t => rw [List.map_cons, initStep_cons_eq, if_pos (by omega)]
    have hfin : initRun g 0 2 (startState root) = s1 := by
      rw [initRun_succ, hstep1]
      show initRun g 0 1 s1 = s1
      rw [initRun_succ, hstop]
    have hlook : ∀ m ∈ g.legalMoves root,
        lookupIdx [(⟨root, 0, 0⟩ : Entry P)] (g.next root m) = none := by
      intro m hm
      unfold lookupIdx
      have hf : (List.find? (fun e : Entry P => decide (e.pos = g.next root m))
          [⟨root, 0, 0⟩]) = none := by
        rw [List.find?_eq_none]
        intro a ha
        rcases List.mem_singleton.mp ha with rfl
        simp only [decide_eq_true_eq]
        exact fun h => hs m hm h.symm
      rw [hf]
      rfl
    have hch : ((g.legalMoves root).filterMap fun m =>
        lookupIdx [(⟨root, 0, 0⟩ : Entry P)] (g.next root m)) = [] := by
      rw [List.filterMap_eq_nil_iff]
      exact hlook
    have hconn : connect_children g [(⟨root, 0, 0⟩ : Entry P)]
        [(⟨initScore g root, []⟩ : Node)] = [⟨initScore g root, []⟩] := by
      unfold connect_children
      rw [List.foldl_cons, List.foldl_nil,
        connectStep_some g _ _ _ ⟨initScore g root, []⟩ rfl]
      split_ifs with hsc
      · rfl
      · show List.set [(⟨initScore g root, []⟩ : Node)] 0
            ⟨initScore g root, (g.legalMoves root).filterMap fun m =>
              lookupIdx [(⟨root, 0, 0⟩ : Entry P)] (g.next root m)⟩ =
          [⟨initScore g root, []⟩]
        rw [hch]
        rfl
    have hpass : pass [(⟨initScore g root, []⟩ : Node)] =
        ([⟨initScore g root, []⟩], 0) := by
      unfold pass
      show passAux [(⟨initScore g root, []⟩ : Node)] 1 0 = _
      rw [passAux_succ_some _ 0 0 ⟨initScore g root, []⟩ rfl]
      rw [if_neg (by simp [bestScore_nil])]
      rfl
    refine ⟨by rw [hfin, he1], by rw [hfin]; exact hstop, ?_, rfl⟩
    rw [hfin, he1, ht1, hconn, generate_tb_one, hpass]
    rfl

/-- Witness for `initialize_tb_depth_bound` on the toy game with root 0:
the depth-0 run explores only the root. -/
theorem initialize_tb_depth_bound_witness :
    (initRun gameDemo 0 2 (startState 0)).fen2index = [⟨0, 0, 0⟩] :=
  ((initialize_tb_depth_bound gameDemo).2.2 0 (by decide)).1

end MateTB
